import Mathlib

/-!
Shallow embedding of the Thomas Phase 1 simulation engine
(`thomas_phase_1_cli_engine_python.py`): the `Position` / `Action` data
entities and `ThomasEngine.run`, the single skim/scoop evaluation pass.

Dollar and share amounts are modelled as exact rationals.  Python's
builtin `round(x, 2)` (round-half-to-even at two decimal places) is
modelled by `round2`.  The one fallible operation in the pass is the
division `scoop_amount / pos.price` at line 136 of the source, which
raises `ZeroDivisionError` in Python when `price == 0`; the embedding
returns `Option`, with `none` for that fault.  Presentation-only fields
(the `date` stamp and the formatted `reason` string of an `Action`) are
elided; the CSV loader, output writers and CLI are outside the engine.
-/

namespace Thomas

/-- Python's `round(x, 2)`: round to two decimal places, ties to even. -/
def roundHalfEven (y : ℚ) : ℤ :=
  let n := ⌊y⌋
  let f := y - n
  if f < 1/2 then n
  else if 1/2 < f then n + 1
  else if Even n then n else n + 1

/-- `round2 x` models Python's `round(x, 2)`. -/
def round2 (x : ℚ) : ℚ :=
  (roundHalfEven (x * 100) : ℚ) / 100

/-- One holding's state (dataclass `Position`). -/
structure Position where
  symbol : String
  shares : ℚ
  cost_basis : ℚ
  price : ℚ
  dividend_yield : ℚ
  core_shares : ℚ
deriving DecidableEq

/-- `Position.gain_pct`: `(price - cost_basis) / cost_basis`, or `0.0`
when `cost_basis <= 0`. -/
def Position.gain_pct (p : Position) : ℚ :=
  if p.cost_basis ≤ 0 then 0 else (p.price - p.cost_basis) / p.cost_basis

/-- One logged decision (dataclass `Action`); `action` is one of the
string literals `"Skim"`, `"Scoop"`, `"Note"` used by the source. -/
structure Action where
  symbol : String
  action : String
  shares : ℚ
  price : ℚ
  cash_delta : ℚ
deriving DecidableEq

namespace ThomasEngine

/-- The skim branch of `ThomasEngine.run` (source lines 104-132): given
the minimum-proceeds threshold, the current position and cash, return
the updated position and cash and the actions logged by the branch. -/
def skimStep (min_skim_proceeds : ℚ) (pos : Position) (cash : ℚ) :
    Position × ℚ × List Action :=
  if pos.price > pos.cost_basis ∧ pos.gain_pct ≥ 0 then
    let skimmable := max 0 (pos.shares - pos.core_shares)
    if skimmable > 0 then
      let sell_shares := round2 skimmable
      let proceeds := sell_shares * pos.price
      if proceeds ≥ min_skim_proceeds then
        ({ pos with shares := pos.shares - sell_shares }, cash + proceeds,
          [⟨pos.symbol, "Skim", sell_shares, pos.price, proceeds⟩])
      else
        (pos, cash, [⟨pos.symbol, "Note", 0, pos.price, 0⟩])
    else
      (pos, cash, [])
  else
    (pos, cash, [])

/-- The scoop branch of `ThomasEngine.run` (source lines 135-152).
`none` models the `ZeroDivisionError` Python raises at
`round(self.scoop_amount / pos.price, 2)` when `pos.price == 0`. -/
def scoopStep (scoop_amount : ℚ) (pos : Position) (cash : ℚ) :
    Option (Position × ℚ × List Action) :=
  if pos.price < pos.cost_basis ∧ cash ≥ scoop_amount then
    if pos.price = 0 then none
    else
      let buy_shares := round2 (scoop_amount / pos.price)
      let cost := buy_shares * pos.price
      if cost ≤ cash ∧ buy_shares > 0 then
        let new_total_cost := pos.cost_basis * pos.shares + cost
        let new_shares := pos.shares + buy_shares
        some
          ({ pos with
              shares := new_shares,
              cost_basis :=
                if new_shares > 0 then new_total_cost / new_shares
                else pos.cost_basis },
            cash - cost,
            [⟨pos.symbol, "Scoop", buy_shares, pos.price, -cost⟩])
      else
        some (pos, cash, [])
  else
    some (pos, cash, [])

/-- One iteration of the loop body of `run`: the skim branch followed by
the scoop branch on the (possibly mutated) position and cash; a fault in
the scoop branch is a fault of the iteration. -/
def processPosition (scoop_amount min_skim_proceeds : ℚ)
    (pos : Position) (cash : ℚ) : Option (Position × ℚ × List Action) :=
  let r1 := skimStep min_skim_proceeds pos cash
  (scoopStep scoop_amount r1.1 r1.2.1).map
    (fun r2 => (r2.1, r2.2.1, r1.2.2 ++ r2.2.2))

/-- The loop of `run` over the insertion-ordered position mapping,
threading cash and appending to the action log; a fault at any position
aborts the pass. -/
def runPass (scoop_amount min_skim_proceeds : ℚ) :
    List (String × Position) → ℚ →
    Option (List (String × Position) × ℚ × List Action)
  | [], cash => some ([], cash, [])
  | (sym, pos) :: rest, cash =>
    (processPosition scoop_amount min_skim_proceeds pos cash).bind fun r1 =>
      (runPass scoop_amount min_skim_proceeds rest r1.2.1).map fun rr =>
        ((sym, r1.1) :: rr.1, rr.2.1, r1.2.2 ++ rr.2.2)

/-- Insert into an insertion-ordered association list with
last-write-wins semantics: an existing key keeps its slot but takes the
new value, a new key is appended.  This is how a Python `dict`
comprehension treats duplicate keys. -/
def insertKey (m : List (String × Position)) (k : String) (v : Position) :
    List (String × Position) :=
  if m.any (fun kv => kv.1 = k) then
    m.map (fun kv => if kv.1 = k then (k, v) else kv)
  else
    m ++ [(k, v)]

/-- `{p.symbol.upper(): p for p in positions}` of `ThomasEngine.__init__`
(source line 93): the insertion-ordered mapping keyed by uppercased
symbol, later duplicates overwriting earlier ones. -/
def buildPositions (positions : List Position) : List (String × Position) :=
  positions.foldl (fun m p => insertKey m p.symbol.toUpper p) []

/-- `ThomasEngine.run` end to end: build the position mapping from the
input sequence, then run the single evaluation pass. -/
def run (scoop_amount min_skim_proceeds : ℚ) (positions : List Position)
    (cash : ℚ) : Option (List (String × Position) × ℚ × List Action) :=
  runPass scoop_amount min_skim_proceeds (buildPositions positions) cash

/-- The last input position whose uppercased symbol is `k`, if any.  This
is the specification-side description of "later duplicates in the input
overwrite earlier ones with the same key"; it is compared with
`buildPositions` (the embedding of the source's dict comprehension). -/
def lastWithKey (positions : List Position) (k : String) : Option Position :=
  positions.foldl (fun acc p => if p.symbol.toUpper = k then some p else acc) none

end ThomasEngine

namespace ThomasEngine

/-! ### Arithmetic facts about `round2` -/

lemma roundHalfEven_intCast (n : ℤ) : roundHalfEven (n : ℚ) = n := by
  unfold roundHalfEven
  norm_num [Int.floor_intCast]

lemma roundHalfEven_nonpos {y : ℚ} (hy : y ≤ 0) : roundHalfEven y ≤ 0 := by
  simp only [roundHalfEven]
  have hfl : ⌊y⌋ ≤ 0 := by
    have := Int.floor_le_floor (α := ℚ) hy
    simpa using this
  split_ifs with h1 h2 h3
  · exact hfl
  · push_neg at h1
    have hylt : (⌊y⌋ : ℚ) < 0 := by
      have : (⌊y⌋ : ℚ) + 1/2 ≤ y := by linarith
      linarith
    have : ⌊y⌋ < 0 := by exact_mod_cast hylt
    omega
  · exact hfl
  · push_neg at h1
    have hylt : (⌊y⌋ : ℚ) < 0 := by
      have : (⌊y⌋ : ℚ) + 1/2 ≤ y := by linarith
      linarith
    have : ⌊y⌋ < 0 := by exact_mod_cast hylt
    omega

lemma round2_nonpos {x : ℚ} (hx : x ≤ 0) : round2 x ≤ 0 := by
  unfold round2
  have h : roundHalfEven (x * 100) ≤ 0 := roundHalfEven_nonpos (by nlinarith)
  have h' : (roundHalfEven (x * 100) : ℚ) ≤ 0 := by exact_mod_cast h
  linarith

lemma round2_zero : round2 0 = 0 := by
  unfold round2
  have : roundHalfEven ((0 : ℤ) : ℚ) = 0 := roundHalfEven_intCast 0
  simpa using this

lemma round2_pos_arg {x : ℚ} (h0 : 0 ≤ x) (h : 0 < round2 x) : 0 < x := by
  rcases h0.lt_or_eq with hlt | heq
  · exact hlt
  · exfalso
    rw [← heq, round2_zero] at h
    exact lt_irrefl 0 h

lemma round2_int_div (n : ℤ) : round2 ((n : ℚ) / 100) = (n : ℚ) / 100 := by
  unfold round2
  rw [div_mul_cancel₀ _ (by norm_num : (100 : ℚ) ≠ 0), roundHalfEven_intCast]

/-! ### Branch lemmas for the skim and scoop steps -/

lemma skimStep_preserves (msp : ℚ) (pos : Position) (cash : ℚ) :
    (skimStep msp pos cash).1.symbol = pos.symbol ∧
    (skimStep msp pos cash).1.cost_basis = pos.cost_basis ∧
    (skimStep msp pos cash).1.price = pos.price ∧
    (skimStep msp pos cash).1.dividend_yield = pos.dividend_yield ∧
    (skimStep msp pos cash).1.core_shares = pos.core_shares := by
  simp only [skimStep]
  split_ifs <;> exact ⟨rfl, rfl, rfl, rfl, rfl⟩

lemma scoopStep_preserves (sa : ℚ) (pos : Position) (cash : ℚ)
    {r : Position × ℚ × List Action} (h : scoopStep sa pos cash = some r) :
    r.1.symbol = pos.symbol ∧ r.1.price = pos.price ∧
    r.1.dividend_yield = pos.dividend_yield ∧
    r.1.core_shares = pos.core_shares := by
  simp only [scoopStep] at h
  split_ifs at h <;> rw [Option.some_inj] at h <;> subst h <;>
    exact ⟨rfl, rfl, rfl, rfl⟩

lemma skimStep_acts (msp : ℚ) (pos : Position) (cash : ℚ) :
    ∀ a ∈ (skimStep msp pos cash).2.2,
      pos.cost_basis < pos.price ∧ (a.action = "Skim" ∨ a.action = "Note") := by
  simp only [skimStep]
  split_ifs with h1 h2 h3
  · intro a ha
    simp only [List.mem_singleton] at ha
    subst ha
    exact ⟨h1.1, Or.inl rfl⟩
  · intro a ha
    simp only [List.mem_singleton] at ha
    subst ha
    exact ⟨h1.1, Or.inr rfl⟩
  · intro a ha
    simp at ha
  · intro a ha
    simp at ha

lemma scoopStep_acts (sa : ℚ) (pos : Position) (cash : ℚ)
    {r : Position × ℚ × List Action} (h : scoopStep sa pos cash = some r) :
    ∀ a ∈ r.2.2, pos.price < pos.cost_basis ∧ a.action = "Scoop" := by
  simp only [scoopStep] at h
  split_ifs at h with h1 h2 h3 h4 <;> rw [Option.some_inj] at h <;> subst h
  · intro a ha
    simp only [List.mem_singleton] at ha
    subst ha
    exact ⟨h1.1, rfl⟩
  · intro a ha
    simp only [List.mem_singleton] at ha
    subst ha
    exact ⟨h1.1, rfl⟩
  · intro a ha
    simp at ha
  · intro a ha
    simp at ha

lemma processPosition_elim {sa msp : ℚ} {pos : Position} {cash : ℚ}
    {r : Position × ℚ × List Action} (h : processPosition sa msp pos cash = some r) :
    ∃ r2, scoopStep sa (skimStep msp pos cash).1 (skimStep msp pos cash).2.1 = some r2 ∧
      r = (r2.1, r2.2.1, (skimStep msp pos cash).2.2 ++ r2.2.2) := by
  simp only [processPosition] at h
  rcases Option.map_eq_some'.mp h with ⟨r2, hr2, heq⟩
  exact ⟨r2, hr2, heq.symm⟩

lemma skim_scoop_exclusive {sa msp : ℚ} {pos : Position} {cash : ℚ}
    {r : Position × ℚ × List Action} (h : processPosition sa msp pos cash = some r)
    (h1 : ∃ a ∈ r.2.2, a.action = "Skim") (h2 : ∃ a ∈ r.2.2, a.action = "Scoop") :
    False := by
  obtain ⟨r2, hsc, hr⟩ := processPosition_elim h
  subst hr
  obtain ⟨a1, ha1, hact1⟩ := h1
  obtain ⟨a2, ha2, hact2⟩ := h2
  have hpres := skimStep_preserves msp pos cash
  rcases List.mem_append.mp ha1 with m1 | m1
  · have htrig1 := (skimStep_acts msp pos cash a1 m1).1
    rcases List.mem_append.mp ha2 with m2 | m2
    · rcases (skimStep_acts msp pos cash a2 m2).2 with hk | hk <;>
        exact absurd (hact2.symm.trans hk) (by decide)
    · have hlt := (scoopStep_acts sa _ _ hsc a2 m2).1
      rw [hpres.2.2.1, hpres.2.1] at hlt
      exact absurd htrig1 (not_lt.mpr (le_of_lt hlt))
  · have := (scoopStep_acts sa _ _ hsc a1 m1).2
    exact absurd (hact1.symm.trans this) (by decide)

lemma skimStep_fire (msp : ℚ) (pos : Position) (cash : ℚ)
    (h1 : pos.price > pos.cost_basis ∧ pos.gain_pct ≥ 0)
    (h2 : max 0 (pos.shares - pos.core_shares) > 0)
    (h3 : round2 (max 0 (pos.shares - pos.core_shares)) * pos.price ≥ msp) :
    skimStep msp pos cash =
      ({ pos with shares := pos.shares - round2 (max 0 (pos.shares - pos.core_shares)) },
        cash + round2 (max 0 (pos.shares - pos.core_shares)) * pos.price,
        [⟨pos.symbol, "Skim", round2 (max 0 (pos.shares - pos.core_shares)), pos.price,
          round2 (max 0 (pos.shares - pos.core_shares)) * pos.price⟩]) := by
  simp only [skimStep, if_pos h1, if_pos h2, if_pos h3]

lemma skimStep_note (msp : ℚ) (pos : Position) (cash : ℚ)
    (h1 : pos.price > pos.cost_basis ∧ pos.gain_pct ≥ 0)
    (h2 : max 0 (pos.shares - pos.core_shares) > 0)
    (h3 : ¬ round2 (max 0 (pos.shares - pos.core_shares)) * pos.price ≥ msp) :
    skimStep msp pos cash = (pos, cash, [⟨pos.symbol, "Note", 0, pos.price, 0⟩]) := by
  simp only [skimStep, if_pos h1, if_pos h2, if_neg h3]

lemma skimStep_no_trigger (msp : ℚ) (pos : Position) (cash : ℚ)
    (h : ¬ (pos.price > pos.cost_basis ∧ pos.gain_pct ≥ 0)) :
    skimStep msp pos cash = (pos, cash, []) := by
  simp only [skimStep, if_neg h]

lemma scoopStep_no_trigger (sa : ℚ) (pos : Position) (cash : ℚ)
    (h : ¬ (pos.price < pos.cost_basis ∧ cash ≥ sa)) :
    scoopStep sa pos cash = some (pos, cash, []) := by
  simp only [scoopStep, if_neg h]

lemma scoopStep_fire (sa : ℚ) (pos : Position) (cash : ℚ)
    (h1 : pos.price < pos.cost_basis ∧ cash ≥ sa) (h2 : ¬ pos.price = 0)
    (h3 : round2 (sa / pos.price) * pos.price ≤ cash ∧ round2 (sa / pos.price) > 0)
    (h4 : pos.shares + round2 (sa / pos.price) > 0) :
    scoopStep sa pos cash =
      some ({ pos with
          shares := pos.shares + round2 (sa / pos.price),
          cost_basis := (pos.cost_basis * pos.shares + round2 (sa / pos.price) * pos.price) /
            (pos.shares + round2 (sa / pos.price)) },
        cash - round2 (sa / pos.price) * pos.price,
        [⟨pos.symbol, "Scoop", round2 (sa / pos.price), pos.price,
          -(round2 (sa / pos.price) * pos.price)⟩]) := by
  simp only [scoopStep, if_pos h1, if_neg h2, if_pos h3, if_pos h4]

/-- C7: for a position with `coreShares >= shares`, the skim branch is
inert regardless of gain: it emits no record (neither Skim nor Note) and
leaves the position's shares and the cash balance untouched. -/
theorem C7_core_shares_protect (msp : ℚ) (pos : Position) (cash : ℚ)
    (h : pos.shares ≤ pos.core_shares) :
    skimStep msp pos cash = (pos, cash, []) := by
  simp only [skimStep]
  split_ifs with h1 h2 h3
  · exact absurd h2 (not_lt.mpr (max_le le_rfl (by linarith)))
  · exact absurd h2 (not_lt.mpr (max_le le_rfl (by linarith)))
  · rfl
  · rfl

/-- Witness for C7 at a concrete fully-core position. -/
theorem C7_core_shares_protect_witness :
    skimStep 10 ⟨"AGNC", 5, 1, 2, 0, 5⟩ 0 = (⟨"AGNC", 5, 1, 2, 0, 5⟩, 0, []) :=
  C7_core_shares_protect 10 ⟨"AGNC", 5, 1, 2, 0, 5⟩ 0 (by norm_num)

/-- C5 counterexample: it is impossible for both a Skim record and a
Scoop record to be emitted for the same position in one evaluation pass,
because the skim trigger requires `price > costBasis`, the scoop trigger
requires `price < costBasis`, and a skim never modifies `costBasis`. -/
theorem C5_counterexample :
    ¬ ∃ (sa msp : ℚ) (pos : Position) (cash : ℚ) (r : Position × ℚ × List Action),
        processPosition sa msp pos cash = some r ∧
        (∃ a ∈ r.2.2, a.action = "Skim") ∧ (∃ a ∈ r.2.2, a.action = "Scoop") := by
  rintro ⟨sa, msp, pos, cash, r, h, h1, h2⟩
  exact skim_scoop_exclusive h h1 h2

/-- C5 (amended): the skim branch is evaluated first and the scoop check
runs on the position and cash the skim branch left behind, but the two
triggers are mutually exclusive, so a position never receives both a
Skim record and a Scoop record in the same pass. -/
theorem C5_amended (sa msp : ℚ) (pos : Position) (cash : ℚ)
    (r : Position × ℚ × List Action) (h : processPosition sa msp pos cash = some r) :
    (∃ r2, scoopStep sa (skimStep msp pos cash).1 (skimStep msp pos cash).2.1 = some r2 ∧
        r = (r2.1, r2.2.1, (skimStep msp pos cash).2.2 ++ r2.2.2)) ∧
    ¬ ((∃ a ∈ r.2.2, a.action = "Skim") ∧ (∃ a ∈ r.2.2, a.action = "Scoop")) :=
  ⟨processPosition_elim h, fun hc => skim_scoop_exclusive h hc.1 hc.2⟩

/-- Witness for C5 at a concrete position that triggers a Note. -/
theorem C5_amended_witness :
    (∃ r2, scoopStep 10 (skimStep 10 ⟨"O", 1/10, 60, 65, 0, 0⟩ 0).1
          (skimStep 10 ⟨"O", 1/10, 60, 65, 0, 0⟩ 0).2.1 = some r2 ∧
        ((⟨"O", 1/10, 60, 65, 0, 0⟩, (0 : ℚ), [⟨"O", "Note", 0, 65, 0⟩]) :
            Position × ℚ × List Action) =
          (r2.1, r2.2.1, (skimStep 10 ⟨"O", 1/10, 60, 65, 0, 0⟩ 0).2.2 ++ r2.2.2)) ∧
    ¬ ((∃ a ∈ ((⟨"O", 1/10, 60, 65, 0, 0⟩, (0 : ℚ), [⟨"O", "Note", 0, 65, 0⟩]) :
            Position × ℚ × List Action).2.2, a.action = "Skim") ∧
       (∃ a ∈ ((⟨"O", 1/10, 60, 65, 0, 0⟩, (0 : ℚ), [⟨"O", "Note", 0, 65, 0⟩]) :
            Position × ℚ × List Action).2.2, a.action = "Scoop")) :=
  C5_amended 10 10 ⟨"O", 1/10, 60, 65, 0, 0⟩ 0
    (⟨"O", 1/10, 60, 65, 0, 0⟩, (0 : ℚ), [⟨"O", "Note", 0, 65, 0⟩])
    (by with_unfolding_all decide)

/-- C1 counterexample: a position with `price = 0 < costBasis` while
`cash >= scoopAmount` makes the evaluation pass fault (the source
divides `scoop_amount / pos.price` with no guard on the price, raising
`ZeroDivisionError`), instead of being skipped. -/
theorem C1_counterexample :
    run 10 10 [⟨"VTI", 1, 1, 0, 0, 0⟩] 100 = none := by
  with_unfolding_all decide

/-- C1 (amended): with the scoop trigger held and a positive scoop
amount, a strictly negative price yields non-positive `buyShares`, so
the scoop is skipped with no record and no fault; but a zero price is
not guarded: the division is performed and evaluation faults. -/
theorem C1_amended (sa : ℚ) (pos : Position) (cash : ℚ)
    (htrig : pos.price < pos.cost_basis ∧ cash ≥ sa) (hsa : 0 < sa) :
    (pos.price < 0 → scoopStep sa pos cash = some (pos, cash, [])) ∧
    (pos.price = 0 → scoopStep sa pos cash = none) := by
  constructor
  · intro hneg
    have hne : ¬ pos.price = 0 := ne_of_lt hneg
    have hb : ¬ (round2 (sa / pos.price) * pos.price ≤ cash ∧
        round2 (sa / pos.price) > 0) := by
      rintro ⟨-, hbpos⟩
      have hdiv : sa / pos.price ≤ 0 := le_of_lt (div_neg_of_pos_of_neg hsa hneg)
      exact absurd hbpos (not_lt.mpr (round2_nonpos hdiv))
    simp only [scoopStep, if_pos htrig, if_neg hne, if_neg hb]
  · intro h0
    simp only [scoopStep, if_pos htrig, if_pos h0]

/-- Witness for C1 at a concrete negative-price position. -/
theorem C1_amended_witness :
    scoopStep 10 ⟨"VTI", 1, 2, -1, 0, 0⟩ 100 = some (⟨"VTI", 1, 2, -1, 0, 0⟩, 100, []) :=
  (C1_amended 10 ⟨"VTI", 1, 2, -1, 0, 0⟩ 100 (by norm_num) (by norm_num)).1 (by norm_num)

/-- C3: with `price > costBasis > 0`, a positive rounded skimmable
quantity and proceeds at or above the minimum, one evaluation step sells
exactly the rounded skimmable shares, adds exactly
`skimmedShares * price` to cash, and emits a single matching Skim
record (and nothing else: the scoop trigger cannot also hold). -/
theorem C3_skim_fires (sa msp : ℚ) (pos : Position) (cash : ℚ)
    (hcb : 0 < pos.cost_basis) (hp : pos.cost_basis < pos.price)
    (hsk : 0 < round2 (max 0 (pos.shares - pos.core_shares)))
    (hmin : msp ≤ round2 (max 0 (pos.shares - pos.core_shares)) * pos.price) :
    processPosition sa msp pos cash =
      some ({ pos with
          shares := pos.shares - round2 (max 0 (pos.shares - pos.core_shares)) },
        cash + round2 (max 0 (pos.shares - pos.core_shares)) * pos.price,
        [⟨pos.symbol, "Skim", round2 (max 0 (pos.shares - pos.core_shares)), pos.price,
          round2 (max 0 (pos.shares - pos.core_shares)) * pos.price⟩]) := by
  have hg : pos.gain_pct ≥ 0 := by
    simp only [Position.gain_pct, if_neg (not_le.mpr hcb)]
    exact div_nonneg (by linarith) (le_of_lt hcb)
  have h2 : max 0 (pos.shares - pos.core_shares) > 0 :=
    round2_pos_arg (le_max_left 0 _) hsk
  have hfire := skimStep_fire msp pos cash ⟨hp, hg⟩ h2 hmin
  have hns := scoopStep_no_trigger sa
      ({ pos with shares := pos.shares - round2 (max 0 (pos.shares - pos.core_shares)) })
      (cash + round2 (max 0 (pos.shares - pos.core_shares)) * pos.price)
      (by rintro ⟨hlt, -⟩; exact absurd hlt (not_lt.mpr (le_of_lt hp)))
  simp only [processPosition, hfire, hns, Option.map_some', List.append_nil]

/-- Witness for C3: the spec's first concrete scenario (JEPQ). -/
theorem C3_skim_fires_witness :
    processPosition 10 10 ⟨"JEPQ", 100, 50, 55, 0, 0⟩ 0 =
      some (⟨"JEPQ", 100 - round2 (max 0 (100 - 0)), 50, 55, 0, 0⟩,
        0 + round2 (max 0 (100 - 0)) * 55,
        [⟨"JEPQ", "Skim", round2 (max 0 (100 - 0)), 55, round2 (max 0 (100 - 0)) * 55⟩]) :=
  C3_skim_fires 10 10 ⟨"JEPQ", 100, 50, 55, 0, 0⟩ 0 (by norm_num) (by norm_num)
    (by with_unfolding_all decide) (by with_unfolding_all decide)

/-- C4: with `price < costBasis`, positive price, cash at least the
scoop amount, positive rounded `buyShares` and affordable cost, one
evaluation step emits a Scoop record, subtracts exactly the cost from
cash, adds `buyShares` to the position, and sets the cost basis to the
weighted average of the old and new lots.  `0 ≤ shares` is the data
model's invariant on a position's share count. -/
theorem C4_scoop_fires (sa msp : ℚ) (pos : Position) (cash : ℚ)
    (hsh : 0 ≤ pos.shares) (hp : pos.price < pos.cost_basis) (hp0 : 0 < pos.price)
    (hcash : sa ≤ cash)
    (hbuy : 0 < round2 (sa / pos.price))
    (hcost : round2 (sa / pos.price) * pos.price ≤ cash) :
    processPosition sa msp pos cash =
      some ({ pos with
          shares := pos.shares + round2 (sa / pos.price),
          cost_basis := (pos.cost_basis * pos.shares + round2 (sa / pos.price) * pos.price) /
            (pos.shares + round2 (sa / pos.price)) },
        cash - round2 (sa / pos.price) * pos.price,
        [⟨pos.symbol, "Scoop", round2 (sa / pos.price), pos.price,
          -(round2 (sa / pos.price) * pos.price)⟩]) := by
  have hskim := skimStep_no_trigger msp pos cash
    (by rintro ⟨hgt, -⟩; exact absurd hgt (not_lt.mpr (le_of_lt hp)))
  have hfire := scoopStep_fire sa pos cash ⟨hp, hcash⟩ (ne_of_gt hp0) ⟨hcost, hbuy⟩
    (add_pos_of_nonneg_of_pos hsh hbuy)
  simp only [processPosition, hskim, hfire, Option.map_some', List.nil_append]

/-- Witness for C4: the spec's fourth concrete scenario (VTI). -/
theorem C4_scoop_fires_witness :
    processPosition 10 10 ⟨"VTI", 10, 240, 230, 0, 0⟩ 20 =
      some (⟨"VTI", 10 + round2 (10 / 230),
          (240 * 10 + round2 (10 / 230) * 230) / (10 + round2 (10 / 230)), 230, 0, 0⟩,
        20 - round2 (10 / 230) * 230,
        [⟨"VTI", "Scoop", round2 (10 / 230), 230, -(round2 (10 / 230) * 230)⟩]) :=
  C4_scoop_fires 10 10 ⟨"VTI", 10, 240, 230, 0, 0⟩ 20 (by norm_num) (by norm_num)
    (by norm_num) (by norm_num) (by with_unfolding_all decide)
    (by with_unfolding_all decide)

/-- C6: when the skim trigger holds, the rounded skimmable quantity is
positive, but the proceeds fall short of the minimum, the evaluation
step leaves the position and the cash untouched and emits exactly one
Note record with zero share and cash deltas. -/
theorem C6_note_below_min (sa msp : ℚ) (pos : Position) (cash : ℚ)
    (hp : pos.cost_basis < pos.price) (hg : 0 ≤ pos.gain_pct)
    (hsk : 0 < round2 (max 0 (pos.shares - pos.core_shares)))
    (hmin : round2 (max 0 (pos.shares - pos.core_shares)) * pos.price < msp) :
    processPosition sa msp pos cash =
      some (pos, cash, [⟨pos.symbol, "Note", 0, pos.price, 0⟩]) := by
  have h2 : max 0 (pos.shares - pos.core_shares) > 0 :=
    round2_pos_arg (le_max_left 0 _) hsk
  have hnote := skimStep_note msp pos cash ⟨hp, hg⟩ h2 (not_le.mpr hmin)
  have hns := scoopStep_no_trigger sa pos cash
    (by rintro ⟨hlt, -⟩; exact absurd hlt (not_lt.mpr (le_of_lt hp)))
  simp only [processPosition, hnote, hns, Option.map_some', List.append_nil]

/-- Witness for C6: the spec's third concrete scenario (O). -/
theorem C6_note_below_min_witness :
    processPosition 10 10 ⟨"O", 1/10, 60, 65, 0, 0⟩ 0 =
      some (⟨"O", 1/10, 60, 65, 0, 0⟩, 0, [⟨"O", "Note", 0, 65, 0⟩]) :=
  C6_note_below_min 10 10 ⟨"O", 1/10, 60, 65, 0, 0⟩ 0 (by norm_num)
    (by with_unfolding_all decide) (by with_unfolding_all decide)
    (by with_unfolding_all decide)

/-! ### The position mapping (C8) -/

lemma lookup_cons_pair (q k : String) (v : Position) (m : List (String × Position)) :
    List.lookup q ((k, v) :: m) = if q = k then some v else List.lookup q m := by
  by_cases h : q = k
  · subst h
    simp [List.lookup]
  · have hb : (q == k) = false := beq_eq_false_iff_ne.mpr h
    simp [List.lookup, hb, h]

lemma lookup_replace_ne (v : Position) {q k : String} (hq : q ≠ k) :
    ∀ m : List (String × Position),
      List.lookup q (m.map (fun kv => if kv.1 = k then (k, v) else kv)) =
        List.lookup q m := by
  intro m
  induction m with
  | nil => rfl
  | cons a m ih =>
    obtain ⟨ak, av⟩ := a
    simp only [List.map_cons]
    by_cases ha : ak = k
    · subst ha
      rw [if_pos rfl, lookup_cons_pair, lookup_cons_pair, if_neg hq, if_neg hq, ih]
    · rw [if_neg ha, lookup_cons_pair, lookup_cons_pair, ih]

lemma lookup_replace_eq (v : Position) (k : String) :
    ∀ m : List (String × Position),
      List.lookup k (m.map (fun kv => if kv.1 = k then (k, v) else kv)) =
        if m.any (fun kv => kv.1 = k) then some v else none := by
  intro m
  induction m with
  | nil => simp
  | cons a m ih =>
    obtain ⟨ak, av⟩ := a
    simp only [List.map_cons, List.any_cons]
    by_cases ha : ak = k
    · subst ha
      rw [if_pos rfl, lookup_cons_pair, if_pos rfl]
      simp
    · rw [if_neg ha, lookup_cons_pair, if_neg (fun h => ha h.symm), ih]
      have hd : (decide (ak = k)) = false := by simp [ha]
      simp only [hd, Bool.false_or]

lemma lookup_append_key (q key : String) (v : Position) :
    ∀ m : List (String × Position), ¬ (m.any fun kv => kv.1 = key) = true →
      List.lookup q (m ++ [(key, v)]) = if q = key then some v else List.lookup q m := by
  intro m
  induction m with
  | nil =>
    intro _
    simp only [List.nil_append]
    rw [lookup_cons_pair]
  | cons a m ih =>
    intro hany
    obtain ⟨ak, av⟩ := a
    simp only [List.any_cons, Bool.or_eq_true, not_or] at hany
    simp only [List.cons_append]
    rw [lookup_cons_pair, lookup_cons_pair]
    by_cases hqa : q = ak
    · have hqk : ¬ q = key := by
        intro h
        rw [hqa] at h
        exact hany.1 (by simp [h])
      rw [if_pos hqa, if_neg hqk, if_pos hqa]
    · rw [if_neg hqa, if_neg hqa, ih (by simpa using hany.2)]

lemma insertKey_lookup (m : List (String × Position)) (key : String) (v : Position)
    (q : String) :
    List.lookup q (insertKey m key v) = if q = key then some v else List.lookup q m := by
  unfold insertKey
  by_cases hany : m.any (fun kv => kv.1 = key)
  · rw [if_pos hany]
    by_cases hq : q = key
    · subst hq
      rw [if_pos rfl, lookup_replace_eq, if_pos hany]
    · rw [if_neg hq, lookup_replace_ne v hq]
  · rw [if_neg hany, lookup_append_key q key v m hany]

lemma replace_keys (key : String) (v : Position) :
    ∀ m : List (String × Position),
      (m.map (fun kv => if kv.1 = key then (key, v) else kv)).map Prod.fst =
        m.map Prod.fst := by
  intro m
  induction m with
  | nil => rfl
  | cons a m ih =>
    obtain ⟨ak, av⟩ := a
    simp only [List.map_cons]
    by_cases ha : ak = key
    · subst ha
      rw [if_pos rfl]
      simp only [List.map_cons, ih]
    · rw [if_neg ha]
      simp only [List.map_cons, ih]

lemma insertKey_keys_nodup (key : String) (v : Position)
    (m : List (String × Position)) (h : (m.map Prod.fst).Nodup) :
    ((insertKey m key v).map Prod.fst).Nodup := by
  unfold insertKey
  by_cases hany : m.any (fun kv => kv.1 = key)
  · rw [if_pos hany, replace_keys]
    exact h
  · rw [if_neg hany]
    have hk : key ∉ m.map Prod.fst := by
      intro hmem
      rcases List.mem_map.mp hmem with ⟨kv, hkv, hfst⟩
      exact hany (List.any_eq_true.mpr ⟨kv, hkv, by simp [hfst]⟩)
    simp [List.nodup_append, h, hk]

lemma buildAux_lookup (k : String) :
    ∀ (ps : List Position) (m : List (String × Position)),
      List.lookup k (ps.foldl (fun m p => insertKey m p.symbol.toUpper p) m) =
        ps.foldl (fun acc p => if p.symbol.toUpper = k then some p else acc)
          (List.lookup k m) := by
  intro ps
  induction ps with
  | nil => intro m; rfl
  | cons p ps ih =>
    intro m
    simp only [List.foldl_cons]
    rw [ih, insertKey_lookup]
    by_cases h : p.symbol.toUpper = k
    · rw [if_pos h.symm, if_pos h]
    · rw [if_neg (fun hh => h hh.symm), if_neg h]

lemma buildAux_nodup :
    ∀ (ps : List Position) (m : List (String × Position)),
      (m.map Prod.fst).Nodup →
      ((ps.foldl (fun m p => insertKey m p.symbol.toUpper p) m).map Prod.fst).Nodup := by
  intro ps
  induction ps with
  | nil => intro m h; exact h
  | cons p ps ih =>
    intro m h
    simp only [List.foldl_cons]
    exact ih _ (insertKey_keys_nodup _ _ _ h)

/-- C8: the engine's position mapping is keyed by the uppercased symbol;
its keys are free of duplicates (exactly one entry per key), and the
entry stored under a key is the last input position whose uppercased
symbol equals that key (later inputs overwrite earlier ones). -/
theorem C8_last_write_wins (positions : List Position) (k : String) :
    ((buildPositions positions).map Prod.fst).Nodup ∧
    List.lookup k (buildPositions positions) = lastWithKey positions k :=
  ⟨buildAux_nodup positions [] (by simp),
    (buildAux_lookup k positions []).trans rfl⟩

/-! ### Frame condition (C9) -/

lemma processPosition_preserves {sa msp : ℚ} {pos : Position} {cash : ℚ}
    {r : Position × ℚ × List Action} (h : processPosition sa msp pos cash = some r) :
    r.1.symbol = pos.symbol ∧ r.1.price = pos.price ∧
    r.1.dividend_yield = pos.dividend_yield ∧ r.1.core_shares = pos.core_shares := by
  obtain ⟨r2, hsc, hr⟩ := processPosition_elim h
  subst hr
  have h1 := skimStep_preserves msp pos cash
  have h2 := scoopStep_preserves sa _ _ hsc
  exact ⟨h2.1.trans h1.1, h2.2.1.trans h1.2.2.1, h2.2.2.1.trans h1.2.2.2.1,
    h2.2.2.2.trans h1.2.2.2.2⟩

/-- C9: the evaluation pass only ever mutates a position's `shares` and
`cost_basis` (and the cash balance): every position key and each
position's `symbol`, `price`, `dividend_yield` and `core_shares` come
out of the pass exactly as they went in, position by position. -/
theorem C9_frame (sa msp : ℚ) (ps : List (String × Position)) (cash : ℚ)
    (res : List (String × Position) × ℚ × List Action)
    (h : runPass sa msp ps cash = some res) :
    List.Forall₂ (fun kp kp' => kp'.1 = kp.1 ∧ kp'.2.symbol = kp.2.symbol ∧
      kp'.2.price = kp.2.price ∧ kp'.2.dividend_yield = kp.2.dividend_yield ∧
      kp'.2.core_shares = kp.2.core_shares) ps res.1 := by
  induction ps generalizing cash res with
  | nil =>
    simp only [runPass] at h
    rw [Option.some_inj] at h
    subst h
    exact List.Forall₂.nil
  | cons kp0 ps ih =>
    obtain ⟨sym, pos⟩ := kp0
    simp only [runPass, Option.bind_eq_some, Option.map_eq_some'] at h
    obtain ⟨r1, hpp, rr, hrp, heq⟩ := h
    subst heq
    have hp := processPosition_preserves hpp
    exact List.Forall₂.cons ⟨rfl, hp.1, hp.2.1, hp.2.2.1, hp.2.2.2⟩ (ih _ _ hrp)

/-- Witness for C9 on a one-position portfolio that skims. -/
theorem C9_frame_witness :
    List.Forall₂ (fun (kp kp' : String × Position) => kp'.1 = kp.1 ∧
      kp'.2.symbol = kp.2.symbol ∧
      kp'.2.price = kp.2.price ∧ kp'.2.dividend_yield = kp.2.dividend_yield ∧
      kp'.2.core_shares = kp.2.core_shares)
      [("JEPQ", ⟨"JEPQ", 1, 5, 20, 0, 0⟩)]
      [("JEPQ", ⟨"JEPQ", 0, 5, 20, 0, 0⟩)] :=
  C9_frame 10 10 [("JEPQ", ⟨"JEPQ", 1, 5, 20, 0, 0⟩)] 0
    ([("JEPQ", ⟨"JEPQ", 0, 5, 20, 0, 0⟩)], 20, [⟨"JEPQ", "Skim", 1, 20, 20⟩])
    (by with_unfolding_all decide)

/-! ### Cash non-negativity (C10) -/

lemma skimStep_cash_lower (msp : ℚ) (pos : Position) (cash : ℚ) (hmsp : 0 ≤ msp) :
    cash ≤ (skimStep msp pos cash).2.1 := by
  simp only [skimStep]
  split_ifs with h1 h2 h3
  · show cash ≤ cash + round2 (max 0 (pos.shares - pos.core_shares)) * pos.price
    have := le_trans hmsp h3
    linarith
  · exact le_rfl
  · exact le_rfl
  · exact le_rfl

lemma scoopStep_cash_nonneg (sa : ℚ) (pos : Position) (cash : ℚ)
    {r : Position × ℚ × List Action} (h : scoopStep sa pos cash = some r)
    (h0 : 0 ≤ cash) : 0 ≤ r.2.1 := by
  simp only [scoopStep] at h
  split_ifs at h with h1 h2 h3 h4 <;> rw [Option.some_inj] at h <;> subst h
  · show 0 ≤ cash - round2 (sa / pos.price) * pos.price
    linarith [h3.1]
  · show 0 ≤ cash - round2 (sa / pos.price) * pos.price
    linarith [h3.1]
  · exact h0
  · exact h0

lemma processPosition_cash_nonneg {sa msp : ℚ} {pos : Position} {cash : ℚ}
    {r : Position × ℚ × List Action} (hmsp : 0 ≤ msp)
    (h : processPosition sa msp pos cash = some r) (h0 : 0 ≤ cash) : 0 ≤ r.2.1 := by
  obtain ⟨r2, hsc, hr⟩ := processPosition_elim h
  subst hr
  have hc := scoopStep_cash_nonneg sa _ _ hsc
    (le_trans h0 (skimStep_cash_lower msp pos cash hmsp))
  exact hc

lemma runPass_cash_nonneg (sa msp : ℚ) (hmsp : 0 ≤ msp) :
    ∀ (ps : List (String × Position)) (cash : ℚ)
      (res : List (String × Position) × ℚ × List Action),
      runPass sa msp ps cash = some res → 0 ≤ cash → 0 ≤ res.2.1 := by
  intro ps
  induction ps with
  | nil =>
    intro cash res h h0
    simp only [runPass] at h
    rw [Option.some_inj] at h
    subst h
    exact h0
  | cons kp0 ps ih =>
    intro cash res h h0
    obtain ⟨sym, pos⟩ := kp0
    simp only [runPass, Option.bind_eq_some, Option.map_eq_some'] at h
    obtain ⟨r1, hpp, rr, hrp, heq⟩ := h
    subst heq
    have h2 := ih r1.2.1 rr hrp (processPosition_cash_nonneg hmsp hpp h0)
    exact h2

/-- C10: with a non-negative minimum-skim threshold (the external
interface requires a positive one), a non-negative cash balance stays
non-negative after each position is processed and at the end of the
pass: a skim adds proceeds at or above the threshold and a scoop only
fires when its cost is at most the available cash. -/
theorem C10_cash_stays_nonneg (sa msp : ℚ) (hmsp : 0 ≤ msp) :
    (∀ (pos : Position) (cash : ℚ) (r : Position × ℚ × List Action),
        processPosition sa msp pos cash = some r → 0 ≤ cash → 0 ≤ r.2.1) ∧
    (∀ (ps : List (String × Position)) (cash : ℚ)
        (res : List (String × Position) × ℚ × List Action),
        runPass sa msp ps cash = some res → 0 ≤ cash → 0 ≤ res.2.1) :=
  ⟨fun _ _ _ h h0 => processPosition_cash_nonneg hmsp h h0,
    fun ps cash res h h0 => runPass_cash_nonneg sa msp hmsp ps cash res h h0⟩

/-! ### Share non-negativity (C2) -/

lemma round2_cent {x : ℚ} (h : ∃ n : ℤ, x = n / 100) : round2 x = x := by
  obtain ⟨n, rfl⟩ := h
  exact round2_int_div n

lemma skimStep_shares_nonneg (msp : ℚ) (pos : Position) (cash : ℚ)
    (h0 : 0 ≤ pos.shares) (hc : 0 ≤ pos.core_shares)
    (hcs : ∃ n : ℤ, pos.shares = n / 100) (hcc : ∃ n : ℤ, pos.core_shares = n / 100) :
    0 ≤ (skimStep msp pos cash).1.shares := by
  simp only [skimStep]
  split_ifs with h1 h2 h3
  · show 0 ≤ pos.shares - round2 (max 0 (pos.shares - pos.core_shares))
    have hpos : 0 < pos.shares - pos.core_shares := by
      by_contra hle
      push_neg at hle
      rw [max_eq_left hle] at h2
      exact lt_irrefl 0 h2
    rw [max_eq_right (le_of_lt hpos)]
    obtain ⟨n, hn⟩ := hcs
    obtain ⟨m, hm⟩ := hcc
    have hsub : pos.shares - pos.core_shares = ((n - m : ℤ) : ℚ) / 100 := by
      rw [hn, hm]
      push_cast
      ring
    rw [hsub, round2_int_div, ← hsub]
    linarith
  · exact h0
  · exact h0
  · exact h0

lemma scoopStep_shares_nonneg (sa : ℚ) (pos : Position) (cash : ℚ)
    {r : Position × ℚ × List Action} (h : scoopStep sa pos cash = some r)
    (h0 : 0 ≤ pos.shares) : 0 ≤ r.1.shares := by
  simp only [scoopStep] at h
  split_ifs at h with h1 h2 h3 h4 <;> rw [Option.some_inj] at h <;> subst h
  · show 0 ≤ pos.shares + round2 (sa / pos.price)
    linarith [h3.2]
  · show 0 ≤ pos.shares + round2 (sa / pos.price)
    linarith [h3.2]
  · exact h0
  · exact h0

lemma processPosition_shares_nonneg {sa msp : ℚ} {pos : Position} {cash : ℚ}
    {r : Position × ℚ × List Action} (h : processPosition sa msp pos cash = some r)
    (h0 : 0 ≤ pos.shares) (hc : 0 ≤ pos.core_shares)
    (hcs : ∃ n : ℤ, pos.shares = n / 100) (hcc : ∃ n : ℤ, pos.core_shares = n / 100) :
    0 ≤ r.1.shares := by
  obtain ⟨r2, hsc, hr⟩ := processPosition_elim h
  subst hr
  have hs := scoopStep_shares_nonneg sa _ _ hsc
    (skimStep_shares_nonneg msp pos cash h0 hc hcs hcc)
  exact hs

lemma runPass_shares_nonneg (sa msp : ℚ) :
    ∀ (ps : List (String × Position)) (cash : ℚ)
      (res : List (String × Position) × ℚ × List Action),
      (∀ kp ∈ ps, 0 ≤ kp.2.shares ∧ 0 ≤ kp.2.core_shares ∧
        (∃ n : ℤ, kp.2.shares = n / 100) ∧ (∃ n : ℤ, kp.2.core_shares = n / 100)) →
      runPass sa msp ps cash = some res →
      ∀ kp ∈ res.1, 0 ≤ kp.2.shares := by
  intro ps
  induction ps with
  | nil =>
    intro cash res _ h
    simp only [runPass] at h
    rw [Option.some_inj] at h
    subst h
    intro kp hkp
    simp at hkp
  | cons kp0 ps ih =>
    intro cash res hin h
    obtain ⟨sym, pos⟩ := kp0
    simp only [runPass, Option.bind_eq_some, Option.map_eq_some'] at h
    obtain ⟨r1, hpp, rr, hrp, heq⟩ := h
    subst heq
    intro kp hkp
    rcases List.mem_cons.mp hkp with hkp | hkp
    · subst hkp
      have h00 := hin (sym, pos) (List.mem_cons_self _ _)
      exact processPosition_shares_nonneg hpp h00.1 h00.2.1 h00.2.2.1 h00.2.2.2
    · exact ih r1.2.1 rr (fun q hq => hin q (List.mem_cons_of_mem _ hq)) hrp kp hkp

/-- C2 counterexample: a position whose share count is not a multiple of
0.01 can be skimmed for MORE shares than it holds, because the sold
quantity is `round(skimmable, 2)` and rounding can round up: starting
from `shares = 0.106 >= 0` the pass ends with `shares = -0.004 < 0`. -/
theorem C2_counterexample :
    run 10 10 [⟨"JEPQ", 53/500, 1, 100, 0, 0⟩] 0 =
      some ([("JEPQ", ⟨"JEPQ", -1/250, 1, 100, 0, 0⟩)], 11,
        [⟨"JEPQ", "Skim", 11/100, 100, 11⟩]) ∧
    (0 : ℚ) ≤ 53/500 ∧ (-1/250 : ℚ) < 0 :=
  ⟨by with_unfolding_all decide, by norm_num, by norm_num⟩

/-- C2 (amended): when every position starts with `shares >= 0` and
`coreShares >= 0` and both quantities are integer multiples of 0.01 (so
that `round(skimmable, 2) = skimmable`), share counts stay non-negative
at each step and for every position after the evaluation pass. -/
theorem C2_amended_shares_nonneg (sa msp : ℚ) :
    (∀ (pos : Position) (cash : ℚ) (r : Position × ℚ × List Action),
        0 ≤ pos.shares → 0 ≤ pos.core_shares →
        (∃ n : ℤ, pos.shares = n / 100) → (∃ n : ℤ, pos.core_shares = n / 100) →
        processPosition sa msp pos cash = some r → 0 ≤ r.1.shares) ∧
    (∀ (ps : List (String × Position)) (cash : ℚ)
        (res : List (String × Position) × ℚ × List Action),
        (∀ kp ∈ ps, 0 ≤ kp.2.shares ∧ 0 ≤ kp.2.core_shares ∧
          (∃ n : ℤ, kp.2.shares = n / 100) ∧ (∃ n : ℤ, kp.2.core_shares = n / 100)) →
        runPass sa msp ps cash = some res →
        ∀ kp ∈ res.1, 0 ≤ kp.2.shares) :=
  ⟨fun _ _ _ h0 hc hcs hcc h => processPosition_shares_nonneg h h0 hc hcs hcc,
    fun ps cash res hin h => runPass_shares_nonneg sa msp ps cash res hin h⟩

/-- Witness for C2 on a concrete below-minimum (Note) position. -/
theorem C2_amended_shares_nonneg_witness :
    (0 : ℚ) ≤ (((⟨"O", 1/10, 60, 65, 0, 0⟩ : Position), (0 : ℚ),
      ([⟨"O", "Note", 0, 65, 0⟩] : List Action)) :
        Position × ℚ × List Action).1.shares :=
  (C2_amended_shares_nonneg 10 10).1 ⟨"O", 1/10, 60, 65, 0, 0⟩ 0
    (⟨"O", 1/10, 60, 65, 0, 0⟩, (0 : ℚ), [⟨"O", "Note", 0, 65, 0⟩])
    (by norm_num) (by norm_num) ⟨10, by norm_num⟩ ⟨0, by norm_num⟩
    (by with_unfolding_all decide)

/-- Witness for C10 on a one-position portfolio that skims. -/
theorem C10_cash_stays_nonneg_witness : (0 : ℚ) ≤ 20 :=
  (C10_cash_stays_nonneg 10 10 (by norm_num)).2
    [("JEPQ", ⟨"JEPQ", 1, 5, 20, 0, 0⟩)] 0
    ([("JEPQ", ⟨"JEPQ", 0, 5, 20, 0, 0⟩)], 20, [⟨"JEPQ", "Skim", 1, 20, 20⟩])
    (by with_unfolding_all decide) (by norm_num)

end ThomasEngine

end Thomas
